import Mathlib

/-!
Verification of `mix_mono_to_stereo_intrinsics` from `src/mix.c`.

The C function mixes a mono float buffer into an interleaved stereo buffer
with independent left/right gains, using SSE intrinsics that process four
source samples per loop iteration.

Embedding choices:
* Memory is a single address space `Nat → α`; `src` and `dst` are base
  addresses into it, matching the raw-pointer interface of the C code.
* `__m128` is a four-lane vector `M128 α`; the intrinsics
  `_mm_set1_ps`, `_mm_loadu_ps`, `_mm_mul_ps`, `_mm_unpacklo_ps`,
  `_mm_unpackhi_ps`, `_mm_storeu_ps` are translated lane by lane.
* The element type and its multiplication are parameters, so that theorems
  about the data flow (each output is one multiplication of one source
  sample by one gain) hold for an arbitrary, uninterpreted multiplication,
  which is then instantiated with a bit-level model `F32` of IEEE-754
  binary32 arithmetic defined below.
* The C `assert(num_samples % 4 == 0)` is modelled by an `Option` result:
  `none` means the assertion fired before any memory access.
-/

/-- Four packed lanes, the model of `__m128`. -/
structure M128 (α : Type) where
  e0 : α
  e1 : α
  e2 : α
  e3 : α

/-- `_mm_set1_ps`: broadcast one scalar into all four lanes. -/
def mm_set1_ps {α : Type} (g : α) : M128 α := ⟨g, g, g, g⟩

/-- `_mm_loadu_ps`: load four consecutive values from memory at address `p`. -/
def mm_loadu_ps {α : Type} (mem : Nat → α) (p : Nat) : M128 α :=
  ⟨mem p, mem (p + 1), mem (p + 2), mem (p + 3)⟩

/-- `_mm_mul_ps`: lane-wise multiplication by `mul`. -/
def mm_mul_ps {α : Type} (mul : α → α → α) (a b : M128 α) : M128 α :=
  ⟨mul a.e0 b.e0, mul a.e1 b.e1, mul a.e2 b.e2, mul a.e3 b.e3⟩

/-- `_mm_unpacklo_ps`: interleave the low two lanes of `a` and `b`. -/
def mm_unpacklo_ps {α : Type} (a b : M128 α) : M128 α :=
  ⟨a.e0, b.e0, a.e1, b.e1⟩

/-- `_mm_unpackhi_ps`: interleave the high two lanes of `a` and `b`. -/
def mm_unpackhi_ps {α : Type} (a b : M128 α) : M128 α :=
  ⟨a.e2, b.e2, a.e3, b.e3⟩

/-- `_mm_storeu_ps`: store the four lanes of `v` to memory at address `p`. -/
def mm_storeu_ps {α : Type} (mem : Nat → α) (p : Nat) (v : M128 α) : Nat → α :=
  fun a =>
    if a = p then v.e0
    else if a = p + 1 then v.e1
    else if a = p + 2 then v.e2
    else if a = p + 3 then v.e3
    else mem a

/-- The body of the `for (i = 0; i < num_samples; i += 4)` loop of
`mix_mono_to_stereo_intrinsics`, from loop counter `i` on, acting on the
memory `mem`.  One iteration loads `src + i .. src + i + 3`, multiplies by
the broadcast gains, interleaves, and stores eight values at
`dst + 2*i .. dst + 2*i + 7`, exactly as lines 17–39 of `mix.c`. -/
def mixLoop {α : Type} (mul : α → α → α) (n dst src : Nat)
    (mul_l mul_r : M128 α) (i : Nat) (mem : Nat → α) : Nat → α :=
  if h : i < n then
    let inp := mm_loadu_ps mem (src + i)
    let out_l := mm_mul_ps mul inp mul_l
    let out_r := mm_mul_ps mul inp mul_r
    let out_lo := mm_unpacklo_ps out_l out_r
    let out_hi := mm_unpackhi_ps out_l out_r
    let mem1 := mm_storeu_ps mem (dst + (2 * i + 0)) out_lo
    let mem2 := mm_storeu_ps mem1 (dst + (2 * i + 4)) out_hi
    mixLoop mul n dst src mul_l mul_r (i + 4) mem2
  else mem
termination_by n - i
decreasing_by omega

/-- `mix_mono_to_stereo_intrinsics` from `mix.c`.  Returns `none` when the
assertion `num_samples % 4 == 0` fails (the call aborts before touching
memory), otherwise `some` of the final memory. -/
def mix_mono_to_stereo_intrinsics {α : Type} (mul : α → α → α)
    (num_samples dst src : Nat) (mem : Nat → α) (gain_l gain_r : α) :
    Option (Nat → α) :=
  if num_samples % 4 = 0 then
    some (mixLoop mul num_samples dst src
      (mm_set1_ps gain_l) (mm_set1_ps gain_r) 0 mem)
  else none

/-- The memory after a successful call (the initial memory if the
assertion fired, which never happens under the precondition). -/
def mixRun {α : Type} (mul : α → α → α) (num_samples dst src : Nat)
    (mem : Nat → α) (gain_l gain_r : α) : Nat → α :=
  (mix_mono_to_stereo_intrinsics mul num_samples dst src mem gain_l gain_r).getD mem

/-- Addresses written by the loop from counter `i` on, in store order:
each iteration stores to `dst + 2*i .. dst + 2*i + 7`. -/
def mixWrites (n dst i : Nat) : List Nat :=
  if h : i < n then
    [dst + (2 * i + 0), dst + (2 * i + 0) + 1, dst + (2 * i + 0) + 2,
     dst + (2 * i + 0) + 3, dst + (2 * i + 4), dst + (2 * i + 4) + 1,
     dst + (2 * i + 4) + 2, dst + (2 * i + 4) + 3] ++ mixWrites n dst (i + 4)
  else []
termination_by n - i
decreasing_by omega

/-- Addresses read by the loop from counter `i` on, in load order:
each iteration loads `src + i .. src + i + 3`. -/
def mixReads (n src i : Nat) : List Nat :=
  if h : i < n then
    [src + i, src + i + 1, src + i + 2, src + i + 3] ++ mixReads n src (i + 4)
  else []
termination_by n - i
decreasing_by omega

/-- Number of iterations the loop executes from counter `i` on. -/
def mixIters (n i : Nat) : Nat :=
  if h : i < n then mixIters n (i + 4) + 1 else 0
termination_by n - i
decreasing_by omega

/-! ### A bit-level model of IEEE-754 binary32 arithmetic

The C kernel operates on `float` values with `mulps`.  `F32` models the
binary32 encoding (sign bit, 8-bit biased exponent, 23-bit fraction) and
`F32.fmul` models packed single-precision multiplication: NaN operands
propagate quietened (first operand preferred, as `mulps` does), `0 × ∞`
raises invalid and returns the indefinite QNaN, and finite products are
rounded to nearest, ties to even. -/

/-- Fuelled base-2 logarithm; structurally recursive so that it evaluates
by kernel reduction.  `log2fuel fuel n = ⌊log₂ n⌋` whenever `0 < n ≤ fuel`. -/
def log2fuel : Nat → Nat → Nat
  | 0, _ => 0
  | fuel + 1, n => if n < 2 then 0 else log2fuel fuel (n / 2) + 1

/-- `⌊log₂ n⌋` (and 0 at 0). -/
def nlog2 (n : Nat) : Nat := log2fuel n n

/-- The IEEE-754 binary32 encoding: sign, 8-bit biased exponent,
23-bit fraction. -/
structure F32 where
  sign : Bool
  exp : Nat
  frac : Nat
deriving DecidableEq

namespace F32

/-- Well-formed encodings: the exponent fits in 8 bits, the fraction in 23. -/
def wf (x : F32) : Prop := x.exp < 256 ∧ x.frac < 2 ^ 23

instance (x : F32) : Decidable x.wf :=
  show Decidable (x.exp < 256 ∧ x.frac < 2 ^ 23) from inferInstance

def isNan (x : F32) : Bool := x.exp == 255 && x.frac != 0

def isInf (x : F32) : Bool := x.exp == 255 && x.frac == 0

def isZero (x : F32) : Bool := x.exp == 0 && x.frac == 0

def isFinite (x : F32) : Bool := x.exp != 255

/-- Quieten a NaN: set the most significant fraction bit, as x86 does when
propagating a NaN operand. -/
def quieten (x : F32) : F32 := ⟨x.sign, 255, x.frac ||| 2 ^ 22⟩

/-- Significand of a finite value, with the implicit leading bit. -/
def sig (x : F32) : Nat := if x.exp = 0 then x.frac else 2 ^ 23 + x.frac

/-- Power-of-two weight of `sig`: a finite value is `± sig x * 2 ^ scale x`. -/
def scale (x : F32) : Int := (if x.exp = 0 then 1 else (x.exp : Int)) - 150

/-- Divide `p` by `2^s`, rounding to nearest with ties to even. -/
def rne (p s : Nat) : Nat :=
  let d := p / 2 ^ s
  let r := p % 2 ^ s
  let half := 2 ^ (s - 1)
  if r < half then d
  else if half < r then d + 1
  else if d % 2 = 0 then d else d + 1

/-- Round the nonzero real number `± p * 2 ^ e` to binary32, round to
nearest, ties to even, with overflow to infinity and gradual underflow. -/
def roundF32 (sgn : Bool) (p : Nat) (e : Int) : F32 :=
  let n := nlog2 p
  let expReal : Int := n + e
  if expReal ≤ -127 then
    let sh : Int := e + 149
    let q := if 0 ≤ sh then p * 2 ^ sh.toNat else rne p (-sh).toNat
    if q < 2 ^ 23 then ⟨sgn, 0, q⟩ else ⟨sgn, 1, q - 2 ^ 23⟩
  else
    let q0 := if n ≤ 23 then p * 2 ^ (23 - n) else rne p (n - 23)
    let q := if q0 = 2 ^ 24 then 2 ^ 23 else q0
    let expOut := if q0 = 2 ^ 24 then expReal + 1 else expReal
    if 128 ≤ expOut then ⟨sgn, 255, 0⟩
    else ⟨sgn, (expOut + 127).toNat, q - 2 ^ 23⟩

/-- Packed single-precision multiply (`mulps`) on two binary32 values. -/
def fmul (a b : F32) : F32 :=
  if a.isNan then a.quieten
  else if b.isNan then b.quieten
  else if a.isInf || b.isInf then
    if a.isZero || b.isZero then ⟨true, 255, 2 ^ 22⟩
    else ⟨xor a.sign b.sign, 255, 0⟩
  else if a.isZero || b.isZero then ⟨xor a.sign b.sign, 0, 0⟩
  else roundF32 (xor a.sign b.sign) (a.sig * b.sig) (a.scale + b.scale)

/-- The IEEE-754 `==` comparison: NaN is unequal to everything (itself
included), `+0 == -0`, and otherwise values are equal when their bits are. -/
def feq (a b : F32) : Bool :=
  if a.isNan || b.isNan then false
  else if a.isZero && b.isZero then true
  else a == b

/-- `+0.0`. -/
def pzero : F32 := ⟨false, 0, 0⟩

/-- `1.0`. -/
def one : F32 := ⟨false, 127, 0⟩

/-- `+∞`. -/
def inf : F32 := ⟨false, 255, 0⟩

end F32

/-! ### Concrete binary32 constants and buffers used by the test claims -/

namespace F32

/-- `2.0`. -/
def two : F32 := ⟨false, 128, 0⟩

/-- `3.0`. -/
def three : F32 := ⟨false, 128, 2 ^ 22⟩

/-- `4.0`. -/
def four : F32 := ⟨false, 129, 0⟩

/-- `0.5`. -/
def half : F32 := ⟨false, 126, 0⟩

/-- `1.5`. -/
def oneHalf : F32 := ⟨false, 127, 2 ^ 22⟩

/-- `6.0`. -/
def six : F32 := ⟨false, 129, 2 ^ 22⟩

/-- `8.0`. -/
def eight : F32 := ⟨false, 130, 0⟩

end F32

/-- The spec example source `[1.0, 2.0, 3.0, 4.0]`, based at address 0. -/
def srcBuf : Nat → F32 := fun a =>
  if a = 0 then F32.one else if a = 1 then F32.two
  else if a = 2 then F32.three else if a = 3 then F32.four else F32.pzero

/-- A source buffer whose first sample is `+∞`. -/
def memInf : Nat → F32 := fun a => if a = 0 then F32.inf else F32.one

/-- A source buffer whose first sample is a (signalling) NaN. -/
def memNan : Nat → F32 := fun a => if a = 0 then ⟨false, 255, 1⟩ else F32.one

/-! ### Store lookup lemmas -/

theorem mm_storeu_ps_ne {α : Type} (mem : Nat → α) (p : Nat) (v : M128 α)
    (a : Nat) (h0 : a ≠ p) (h1 : a ≠ p + 1) (h2 : a ≠ p + 2) (h3 : a ≠ p + 3) :
    mm_storeu_ps mem p v a = mem a := by
  simp [mm_storeu_ps, h0, h1, h2, h3]

theorem mm_storeu_ps_at0 {α : Type} (mem : Nat → α) (p : Nat) (v : M128 α)
    (a : Nat) (h : a = p) : mm_storeu_ps mem p v a = v.e0 := by
  subst h; simp [mm_storeu_ps]

theorem mm_storeu_ps_at1 {α : Type} (mem : Nat → α) (p : Nat) (v : M128 α)
    (a : Nat) (h : a = p + 1) : mm_storeu_ps mem p v a = v.e1 := by
  subst h
  unfold mm_storeu_ps
  rw [if_neg (by omega), if_pos rfl]

theorem mm_storeu_ps_at2 {α : Type} (mem : Nat → α) (p : Nat) (v : M128 α)
    (a : Nat) (h : a = p + 2) : mm_storeu_ps mem p v a = v.e2 := by
  subst h
  unfold mm_storeu_ps
  rw [if_neg (by omega), if_neg (by omega), if_pos rfl]

theorem mm_storeu_ps_at3 {α : Type} (mem : Nat → α) (p : Nat) (v : M128 α)
    (a : Nat) (h : a = p + 3) : mm_storeu_ps mem p v a = v.e3 := by
  subst h
  unfold mm_storeu_ps
  rw [if_neg (by omega), if_neg (by omega), if_neg (by omega), if_pos rfl]

/-! ### Frame lemma: the loop only writes the destination region -/

/-- Any address outside the still-to-be-written destination window
`[dst + 2*i, dst + 2*n)` is left unchanged by the loop. -/
theorem mixLoop_frame {α : Type} (mul : α → α → α) (n dst src : Nat)
    (mul_l mul_r : M128 α) (i : Nat) (mem : Nat → α) (a : Nat)
    (h4n : n % 4 = 0) (h4i : i % 4 = 0)
    (ha : ∀ t, 2 * i ≤ t → t < 2 * n → a ≠ dst + t) :
    mixLoop mul n dst src mul_l mul_r i mem a = mem a := by
  rw [mixLoop]
  by_cases h : i < n
  · rw [dif_pos h]
    simp only [mm_loadu_ps, mm_mul_ps, mm_unpacklo_ps, mm_unpackhi_ps]
    have hi4 : i + 4 ≤ n := by omega
    rw [mixLoop_frame mul n dst src mul_l mul_r (i + 4) _ a h4n (by omega)
      (fun t ht1 ht2 => ha t (by omega) ht2)]
    rw [mm_storeu_ps_ne _ _ _ _
        (by have := ha (2 * i + 4) (by omega) (by omega); omega)
        (by have := ha (2 * i + 5) (by omega) (by omega); omega)
        (by have := ha (2 * i + 6) (by omega) (by omega); omega)
        (by have := ha (2 * i + 7) (by omega) (by omega); omega)]
    rw [mm_storeu_ps_ne _ _ _ _
        (by have := ha (2 * i + 0) (by omega) (by omega); omega)
        (by have := ha (2 * i + 1) (by omega) (by omega); omega)
        (by have := ha (2 * i + 2) (by omega) (by omega); omega)
        (by have := ha (2 * i + 3) (by omega) (by omega); omega)]
  · rw [dif_neg h]
termination_by n - i
decreasing_by omega

/-! ### Content lemma: what the loop puts at each destination slot -/

theorem mm_set1_ps_e0 {α : Type} (g : α) : (mm_set1_ps g).e0 = g := rfl

theorem mm_set1_ps_e1 {α : Type} (g : α) : (mm_set1_ps g).e1 = g := rfl

theorem mm_set1_ps_e2 {α : Type} (g : α) : (mm_set1_ps g).e2 = g := rfl

theorem mm_set1_ps_e3 {α : Type} (g : α) : (mm_set1_ps g).e3 = g := rfl

/-- Left channel: slot `dst + 2*s` ends up holding `src[s] * gain_l`
(one multiplication of the source sample by the broadcast left gain). -/
theorem mixLoop_spec_l {α : Type} (mul : α → α → α) (n dst src : Nat)
    (gl gr : α) (i : Nat) (mem : Nat → α)
    (h4n : n % 4 = 0) (h4i : i % 4 = 0)
    (hdisj : ∀ j t, j < n → t < 2 * n → src + j ≠ dst + t)
    (s : Nat) (hs1 : i ≤ s) (hs2 : s < n) :
    mixLoop mul n dst src (mm_set1_ps gl) (mm_set1_ps gr) i mem (dst + 2 * s)
      = mul (mem (src + s)) gl := by
  have h : i < n := by omega
  have hi4 : i + 4 ≤ n := by omega
  rw [mixLoop, dif_pos h]
  simp only [mm_loadu_ps, mm_mul_ps, mm_unpacklo_ps, mm_unpackhi_ps,
    mm_set1_ps_e0, mm_set1_ps_e1, mm_set1_ps_e2, mm_set1_ps_e3]
  by_cases hs4 : i + 4 ≤ s
  · rw [mixLoop_spec_l mul n dst src gl gr (i + 4) _ h4n (by omega) hdisj s
      (by omega) hs2]
    rw [mm_storeu_ps_ne _ _ _ _
        (by have := hdisj s (2 * i + 4) hs2 (by omega); omega)
        (by have := hdisj s (2 * i + 5) hs2 (by omega); omega)
        (by have := hdisj s (2 * i + 6) hs2 (by omega); omega)
        (by have := hdisj s (2 * i + 7) hs2 (by omega); omega)]
    rw [mm_storeu_ps_ne _ _ _ _
        (by have := hdisj s (2 * i + 0) hs2 (by omega); omega)
        (by have := hdisj s (2 * i + 1) hs2 (by omega); omega)
        (by have := hdisj s (2 * i + 2) hs2 (by omega); omega)
        (by have := hdisj s (2 * i + 3) hs2 (by omega); omega)]
  · rw [mixLoop_frame mul n dst src _ _ (i + 4) _ (dst + 2 * s) h4n (by omega)
      (fun t ht1 ht2 => by omega)]
    rcases show s = i ∨ s = i + 1 ∨ s = i + 2 ∨ s = i + 3 from by omega with
      rfl | rfl | rfl | rfl
    · rw [mm_storeu_ps_ne _ _ _ _ (by omega) (by omega) (by omega) (by omega),
        mm_storeu_ps_at0 _ _ _ _ (by omega)]
    · rw [mm_storeu_ps_ne _ _ _ _ (by omega) (by omega) (by omega) (by omega),
        mm_storeu_ps_at2 _ _ _ _ (by omega)]
      show mul (mem (src + i + 1)) gl = _
      rw [Nat.add_assoc]
    · rw [mm_storeu_ps_at0 _ _ _ _ (by omega)]
      show mul (mem (src + i + 2)) gl = _
      rw [Nat.add_assoc]
    · rw [mm_storeu_ps_at2 _ _ _ _ (by omega)]
      show mul (mem (src + i + 3)) gl = _
      rw [Nat.add_assoc]
termination_by n - i
decreasing_by omega

/-- Right channel: slot `dst + 2*s + 1` ends up holding `src[s] * gain_r`. -/
theorem mixLoop_spec_r {α : Type} (mul : α → α → α) (n dst src : Nat)
    (gl gr : α) (i : Nat) (mem : Nat → α)
    (h4n : n % 4 = 0) (h4i : i % 4 = 0)
    (hdisj : ∀ j t, j < n → t < 2 * n → src + j ≠ dst + t)
    (s : Nat) (hs1 : i ≤ s) (hs2 : s < n) :
    mixLoop mul n dst src (mm_set1_ps gl) (mm_set1_ps gr) i mem (dst + 2 * s + 1)
      = mul (mem (src + s)) gr := by
  have h : i < n := by omega
  have hi4 : i + 4 ≤ n := by omega
  rw [mixLoop, dif_pos h]
  simp only [mm_loadu_ps, mm_mul_ps, mm_unpacklo_ps, mm_unpackhi_ps,
    mm_set1_ps_e0, mm_set1_ps_e1, mm_set1_ps_e2, mm_set1_ps_e3]
  by_cases hs4 : i + 4 ≤ s
  · rw [mixLoop_spec_r mul n dst src gl gr (i + 4) _ h4n (by omega) hdisj s
      (by omega) hs2]
    rw [mm_storeu_ps_ne _ _ _ _
        (by have := hdisj s (2 * i + 4) hs2 (by omega); omega)
        (by have := hdisj s (2 * i + 5) hs2 (by omega); omega)
        (by have := hdisj s (2 * i + 6) hs2 (by omega); omega)
        (by have := hdisj s (2 * i + 7) hs2 (by omega); omega)]
    rw [mm_storeu_ps_ne _ _ _ _
        (by have := hdisj s (2 * i + 0) hs2 (by omega); omega)
        (by have := hdisj s (2 * i + 1) hs2 (by omega); omega)
        (by have := hdisj s (2 * i + 2) hs2 (by omega); omega)
        (by have := hdisj s (2 * i + 3) hs2 (by omega); omega)]
  · rw [mixLoop_frame mul n dst src _ _ (i + 4) _ (dst + 2 * s + 1) h4n (by omega)
      (fun t ht1 ht2 => by omega)]
    rcases show s = i ∨ s = i + 1 ∨ s = i + 2 ∨ s = i + 3 from by omega with
      rfl | rfl | rfl | rfl
    · rw [mm_storeu_ps_ne _ _ _ _ (by omega) (by omega) (by omega) (by omega),
        mm_storeu_ps_at1 _ _ _ _ (by omega)]
    · rw [mm_storeu_ps_ne _ _ _ _ (by omega) (by omega) (by omega) (by omega),
        mm_storeu_ps_at3 _ _ _ _ (by omega)]
      show mul (mem (src + i + 1)) gr = _
      rw [Nat.add_assoc]
    · rw [mm_storeu_ps_at1 _ _ _ _ (by omega)]
      show mul (mem (src + i + 2)) gr = _
      rw [Nat.add_assoc]
    · rw [mm_storeu_ps_at3 _ _ _ _ (by omega)]
      show mul (mem (src + i + 3)) gr = _
      rw [Nat.add_assoc]
termination_by n - i
decreasing_by omega

/-! ### Closed forms for the write set, read set, and iteration count -/

/-- From counter `i`, the loop writes exactly the addresses
`dst + 2*i, …, dst + 2*n - 1`, in increasing order. -/
theorem mixWrites_eq (n dst i : Nat) (h4n : n % 4 = 0) (h4i : i % 4 = 0) :
    mixWrites n dst i = (List.range' (2 * i) (2 * (n - i))).map (dst + ·) := by
  rw [mixWrites]
  by_cases h : i < n
  · rw [dif_pos h]
    rw [mixWrites_eq n dst (i + 4) h4n (by omega)]
    have h8 : List.range' (2 * i) 8 ++ List.range' (2 * i + 8) (2 * (n - (i + 4)))
        = List.range' (2 * i) (2 * (n - i)) := by
      rw [List.range'_append_1]
      congr 1
      omega
    rw [← h8, List.map_append]
    congr 2
  · rw [dif_neg h]
    have : n - i = 0 := by omega
    rw [this]
    rfl
termination_by n - i
decreasing_by omega

/-- From counter `i`, the loop reads exactly the addresses
`src + i, …, src + n - 1`, in increasing order. -/
theorem mixReads_eq (n src i : Nat) (h4n : n % 4 = 0) (h4i : i % 4 = 0) :
    mixReads n src i = (List.range' i (n - i)).map (src + ·) := by
  rw [mixReads]
  by_cases h : i < n
  · rw [dif_pos h]
    rw [mixReads_eq n src (i + 4) h4n (by omega)]
    have h4 : List.range' i 4 ++ List.range' (i + 4) (n - (i + 4))
        = List.range' i (n - i) := by
      rw [List.range'_append_1]
      congr 1
      omega
    rw [← h4, List.map_append]
    congr 1
  · rw [dif_neg h]
    have : n - i = 0 := by omega
    rw [this]
    rfl
termination_by n - i
decreasing_by omega

/-- From counter `i`, the loop performs `(n - i + 3) / 4` iterations. -/
theorem mixIters_eq (n i : Nat) : mixIters n i = (n - i + 3) / 4 := by
  rw [mixIters]
  by_cases h : i < n
  · rw [dif_pos h, mixIters_eq n (i + 4)]
    omega
  · rw [dif_neg h]
    omega
termination_by n - i
decreasing_by omega

theorem log2fuel_spec (fuel : Nat) : ∀ n, n ≠ 0 → n ≤ fuel →
    2 ^ log2fuel fuel n ≤ n ∧ n < 2 ^ (log2fuel fuel n + 1) := by
  induction fuel with
  | zero => intro n h0 hf; omega
  | succ fuel ih =>
    intro n h0 hf
    simp only [log2fuel]
    by_cases h2 : n < 2
    · rw [if_pos h2]
      simp only [pow_zero, pow_one]
      omega
    · rw [if_neg h2]
      obtain ⟨h1', h2'⟩ := ih (n / 2) (by omega) (by omega)
      rw [pow_succ, pow_succ]
      omega

theorem nlog2_spec (n : Nat) (h : n ≠ 0) :
    2 ^ nlog2 n ≤ n ∧ n < 2 ^ (nlog2 n + 1) :=
  log2fuel_spec n n h le_rfl

theorem nlog2_eq_of (n k : Nat) (h1 : 2 ^ k ≤ n) (h2 : n < 2 ^ (k + 1)) :
    nlog2 n = k := by
  have h0 : n ≠ 0 := by have := Nat.one_le_two_pow (n := k); omega
  obtain ⟨a1, a2⟩ := nlog2_spec n h0
  rcases Nat.lt_or_ge (nlog2 n) k with hlt | hge
  · have : 2 ^ (nlog2 n + 1) ≤ 2 ^ k := Nat.pow_le_pow_right (by omega) (by omega)
    omega
  · rcases Nat.lt_or_ge k (nlog2 n) with hlt' | hge'
    · have : 2 ^ (k + 1) ≤ 2 ^ nlog2 n := Nat.pow_le_pow_right (by omega) (by omega)
      omega
    · omega

theorem nlog2_lt (n m : Nat) (h0 : n ≠ 0) (h : n < 2 ^ m) : nlog2 n < m := by
  obtain ⟨a1, a2⟩ := nlog2_spec n h0
  rcases Nat.lt_or_ge (nlog2 n) m with hlt | hge
  · exact hlt
  · have : 2 ^ m ≤ 2 ^ nlog2 n := Nat.pow_le_pow_right (by omega) hge
    omega

namespace F32

theorem rne_exact (f s : Nat) : rne (f * 2 ^ s) s = f := by
  have hp : 0 < 2 ^ s := Nat.pos_pow_of_pos s (by omega)
  have hh : 0 < 2 ^ (s - 1) := Nat.pos_pow_of_pos (s - 1) (by omega)
  simp only [rne, Nat.mul_mod_left]
  rw [if_pos hh]
  exact Nat.mul_div_cancel f hp

/-- Rounding an exact subnormal significand reproduces it: used for
`fmul x one` when `x` is subnormal. -/
theorem roundF32_exact_sub (sgn : Bool) (f : Nat) (hf : f ≠ 0) (hlt : f < 2 ^ 23) :
    roundF32 sgn (f * 2 ^ 23) (-172) = ⟨sgn, 0, f⟩ := by
  have hlog : nlog2 (f * 2 ^ 23) < 46 := by
    apply nlog2_lt _ _ (by positivity)
    calc f * 2 ^ 23 < 2 ^ 23 * 2 ^ 23 := (Nat.mul_lt_mul_right (by positivity)).mpr hlt
    _ = 2 ^ 46 := by norm_num
  simp only [roundF32]
  rw [if_pos (by omega)]
  rw [if_neg (by decide : ¬(0 : Int) ≤ -172 + 149)]
  rw [(by decide : (-((-172 : Int) + 149)).toNat = 23)]
  rw [rne_exact]
  rw [if_pos hlt]

/-- Rounding an exact normal significand reproduces it: used for
`fmul x one` when `x` is normal. -/
theorem roundF32_exact_norm (sgn : Bool) (f e0 : Nat) (hlt : f < 2 ^ 23)
    (he1 : 1 ≤ e0) (he2 : e0 ≤ 254) :
    roundF32 sgn ((2 ^ 23 + f) * 2 ^ 23) ((e0 : Int) - 173) = ⟨sgn, e0, f⟩ := by
  have hlog : nlog2 ((2 ^ 23 + f) * 2 ^ 23) = 46 := by
    apply nlog2_eq_of
    · calc (2 : Nat) ^ 46 = 2 ^ 23 * 2 ^ 23 := by norm_num
      _ ≤ (2 ^ 23 + f) * 2 ^ 23 := Nat.mul_le_mul_right _ (by omega)
    · calc (2 ^ 23 + f) * 2 ^ 23 < 2 ^ 24 * 2 ^ 23 :=
            (Nat.mul_lt_mul_right (by positivity)).mpr (by omega)
      _ = 2 ^ (46 + 1) := by norm_num
  have hq : ¬(2 ^ 23 + f = 2 ^ 24) := by omega
  simp only [roundF32, hlog]
  rw [if_neg (by omega)]
  rw [if_neg (by decide : ¬(46 : Nat) ≤ 23)]
  rw [(by decide : (46 : Nat) - 23 = 23)]
  rw [rne_exact]
  rw [if_neg hq, if_neg hq]
  rw [if_neg (by omega)]
  simp only [F32.mk.injEq, true_and]
  exact ⟨by omega, by omega⟩

/-- Multiplying the significand of a finite nonzero value by `2^23` and
rounding at its own weight minus 23 recovers the value: the rounding step
of `fmul x one` is exact. -/
theorem roundF32_sig_id (x : F32) (hwf : x.wf) (hfin : x.exp ≠ 255)
    (hnz : x.isZero = false) :
    roundF32 x.sign (x.sig * 2 ^ 23) (x.scale - 23) = x := by
  obtain ⟨xs, xe, xf⟩ := x
  have hexp : xe < 256 := hwf.1
  have hfrac : xf < 2 ^ 23 := hwf.2
  have hnz' : (xe == 0 && xf == 0) = false := hnz
  by_cases h0 : xe = 0
  · subst h0
    have hf : xf ≠ 0 := fun h => by subst h; exact absurd hnz' (by decide)
    have hsig : sig ⟨xs, 0, xf⟩ = xf := by simp [sig]
    have hscale : scale ⟨xs, 0, xf⟩ - 23 = -172 := by norm_num [scale]
    rw [hsig, hscale, roundF32_exact_sub xs xf hf hfrac]
  · have hsig : sig ⟨xs, xe, xf⟩ = 2 ^ 23 + xf := by simp [sig, h0]
    have hscale : scale ⟨xs, xe, xf⟩ - 23 = (xe : Int) - 173 := by
      simp [scale, h0]
      omega
    have hfin' : xe ≠ 255 := hfin
    rw [hsig, hscale, roundF32_exact_norm xs xf xe hfrac (by omega) (by omega)]

/-- `x * 1.0 = x` bitwise for every well-formed non-NaN `x`. -/
theorem fmul_one (x : F32) (hwf : x.wf) (hnan : x.isNan = false) :
    fmul x one = x := by
  have hone1 : one.isNan = false := rfl
  have hone2 : one.isInf = false := rfl
  have hone3 : one.isZero = false := rfl
  by_cases hinf : x.isInf = true
  · obtain ⟨xs, xe, xf⟩ := x
    obtain ⟨h255, hf0⟩ : xe = 255 ∧ xf = 0 := by simpa [isInf] using hinf
    subst h255; subst hf0
    simp [fmul, isNan, isInf, isZero, one]
  · by_cases hzero : x.isZero = true
    · obtain ⟨xs, xe, xf⟩ := x
      obtain ⟨h00, hf0⟩ : xe = 0 ∧ xf = 0 := by simpa [isZero] using hzero
      subst h00; subst hf0
      simp [fmul, isNan, isInf, isZero, one]
    · have hfin : x.exp ≠ 255 := by
        intro h255
        rcases Nat.eq_zero_or_pos x.frac with hf | hf
        · exact hinf (show x.isInf = true by simp [isInf, h255, hf])
        · have hn : x.isNan = true := by simp [isNan, h255]; omega
          rw [hnan] at hn
          exact Bool.false_ne_true hn
      have hres := roundF32_sig_id x hwf hfin (by simpa using hzero)
      have hsig : one.sig = 2 ^ 23 := rfl
      have hscale : one.scale = -23 := rfl
      have hsign : one.sign = false := rfl
      simp only [fmul, hnan, hone1, hone2, hone3, Bool.or_false,
        Bool.false_eq_true, if_false]
      rw [if_neg (by simpa using hinf), if_neg (by simpa using hzero)]
      rw [hsig, hscale, hsign, Bool.xor_false]
      calc roundF32 x.sign (x.sig * 2 ^ 23) (x.scale + -23)
          = roundF32 x.sign (x.sig * 2 ^ 23) (x.scale - 23) := by congr 1
      _ = x := hres

/-- `x * (+0.0)` is a zero (of the product sign) for every finite `x`. -/
theorem fmul_pzero (x : F32) (hfin : x.isFinite = true) :
    fmul x pzero = ⟨x.sign, 0, 0⟩ := by
  have h255 : x.exp ≠ 255 := by simpa [isFinite] using hfin
  have hnan : x.isNan = false := by simp [isNan, h255]
  have hinf : x.isInf = false := by simp [isInf, h255]
  simp [fmul, hnan, hinf, isNan, isInf, isZero, pzero, h255]

/-- A zero of either sign is IEEE-equal to `+0.0`. -/
theorem feq_zero (s : Bool) : feq ⟨s, 0, 0⟩ pzero = true := rfl

end F32

/-! ### Bridging lemmas from the full call to the loop lemmas -/

theorem mixRun_eq {α : Type} (mul : α → α → α) (n dst src : Nat) (mem : Nat → α)
    (gl gr : α) (h4n : n % 4 = 0) :
    mixRun mul n dst src mem gl gr
      = mixLoop mul n dst src (mm_set1_ps gl) (mm_set1_ps gr) 0 mem := by
  unfold mixRun mix_mono_to_stereo_intrinsics
  rw [if_pos h4n]
  rfl

theorem mixRun_l {α : Type} (mul : α → α → α) (n dst src : Nat) (mem : Nat → α)
    (gl gr : α) (h4n : n % 4 = 0)
    (hdisj : ∀ j t, j < n → t < 2 * n → src + j ≠ dst + t)
    (s : Nat) (hs : s < n) :
    mixRun mul n dst src mem gl gr (dst + 2 * s) = mul (mem (src + s)) gl := by
  rw [mixRun_eq mul n dst src mem gl gr h4n]
  exact mixLoop_spec_l mul n dst src gl gr 0 mem h4n rfl hdisj s (Nat.zero_le s) hs

theorem mixRun_r {α : Type} (mul : α → α → α) (n dst src : Nat) (mem : Nat → α)
    (gl gr : α) (h4n : n % 4 = 0)
    (hdisj : ∀ j t, j < n → t < 2 * n → src + j ≠ dst + t)
    (s : Nat) (hs : s < n) :
    mixRun mul n dst src mem gl gr (dst + 2 * s + 1) = mul (mem (src + s)) gr := by
  rw [mixRun_eq mul n dst src mem gl gr h4n]
  exact mixLoop_spec_r mul n dst src gl gr 0 mem h4n rfl hdisj s (Nat.zero_le s) hs

theorem mixRun_frame {α : Type} (mul : α → α → α) (n dst src : Nat)
    (mem : Nat → α) (gl gr : α) (a : Nat) (h4n : n % 4 = 0)
    (ha : ∀ t, t < 2 * n → a ≠ dst + t) :
    mixRun mul n dst src mem gl gr a = mem a := by
  rw [mixRun_eq mul n dst src mem gl gr h4n]
  exact mixLoop_frame mul n dst src _ _ 0 mem a h4n rfl (fun t _ ht2 => ha t ht2)

/-! ### Claim theorems -/

/-- C1: for every `num_samples` that is a multiple of 4, every (disjoint)
source and destination placement, every source contents and both gains,
after the call `dst[2*i] = src[i] * gain_l` and `dst[2*i+1] = src[i] * gain_r`
for every `i < num_samples`, where each output is exactly one IEEE-754
single-precision multiplication of the source sample by one gain. -/
theorem c1_elementwise_correct (n dst src : Nat) (mem : Nat → F32)
    (gain_l gain_r : F32) (h4n : n % 4 = 0)
    (hdisj : ∀ j t, j < n → t < 2 * n → src + j ≠ dst + t)
    (i : Nat) (hi : i < n) :
    mixRun F32.fmul n dst src mem gain_l gain_r (dst + 2 * i)
      = F32.fmul (mem (src + i)) gain_l ∧
    mixRun F32.fmul n dst src mem gain_l gain_r (dst + 2 * i + 1)
      = F32.fmul (mem (src + i)) gain_r :=
  ⟨mixRun_l F32.fmul n dst src mem gain_l gain_r h4n hdisj i hi,
   mixRun_r F32.fmul n dst src mem gain_l gain_r h4n hdisj i hi⟩

/-- C1 witness: the hypotheses hold at `num_samples = 4`, `dst = 8`,
`src = 0`, an all-ones buffer, and unit gains. -/
theorem c1_elementwise_correct_witness :
    mixRun F32.fmul 4 8 0 (fun _ => F32.one) F32.one F32.one (8 + 2 * 0)
      = F32.fmul F32.one F32.one ∧
    mixRun F32.fmul 4 8 0 (fun _ => F32.one) F32.one F32.one (8 + 2 * 0 + 1)
      = F32.fmul F32.one F32.one :=
  c1_elementwise_correct 4 8 0 (fun _ => F32.one) F32.one F32.one rfl
    (fun j t hj ht => by omega) 0 (by omega)

/-- C2: when `num_samples` is not a multiple of 4, the assertion
`num_samples % 4 == 0` fails: the call aborts deterministically before
touching any memory (no truncation, no out-of-bounds write). -/
theorem c2_assert_non_multiple {α : Type} (mul : α → α → α) (n dst src : Nat)
    (mem : Nat → α) (gain_l gain_r : α) (h : n % 4 ≠ 0) :
    mix_mono_to_stereo_intrinsics mul n dst src mem gain_l gain_r = none := by
  unfold mix_mono_to_stereo_intrinsics
  rw [if_neg h]

/-- C2 witness: `num_samples = 5` aborts. -/
theorem c2_assert_non_multiple_witness :
    mix_mono_to_stereo_intrinsics Nat.mul 5 8 0 (fun _ => 0) 1 2 = none :=
  c2_assert_non_multiple Nat.mul 5 8 0 (fun _ => 0) 1 2 (by omega)

/-- C3 counterexample: with `gain_l = +0.0` and `src[0] = +∞`, the left
output is the indefinite NaN, so `dst[0] == 0.0` is false: zero gain does
not produce zero output "regardless of src contents". -/
theorem c3_zero_gain_counterexample :
    F32.feq (mixRun F32.fmul 4 8 0 memInf F32.pzero F32.one (8 + 2 * 0))
      F32.pzero = false := by
  rw [mixRun_l F32.fmul 4 8 0 memInf F32.pzero F32.one rfl
    (fun j t hj ht => by omega) 0 (by omega)]
  decide

/-- C3 (amended): a zero gain produces an IEEE-zero in that channel for every
sample whose source value is finite (so `dst[2i] == 0.0`, resp.
`dst[2i+1] == 0.0`, under IEEE comparison); NaN and infinite source samples
instead produce NaN, as IEEE-754 multiplication by zero requires. -/
theorem c3_zero_gain (n dst src : Nat) (mem : Nat → F32) (g : F32)
    (h4n : n % 4 = 0)
    (hdisj : ∀ j t, j < n → t < 2 * n → src + j ≠ dst + t)
    (s : Nat) (hs : s < n) (hfin : (mem (src + s)).isFinite = true) :
    F32.feq (mixRun F32.fmul n dst src mem F32.pzero g (dst + 2 * s))
      F32.pzero = true ∧
    F32.feq (mixRun F32.fmul n dst src mem g F32.pzero (dst + 2 * s + 1))
      F32.pzero = true := by
  constructor
  · rw [mixRun_l F32.fmul n dst src mem F32.pzero g h4n hdisj s hs,
      F32.fmul_pzero _ hfin]
    exact F32.feq_zero _
  · rw [mixRun_r F32.fmul n dst src mem g F32.pzero h4n hdisj s hs,
      F32.fmul_pzero _ hfin]
    exact F32.feq_zero _

/-- C3 witness: the hypotheses hold at `num_samples = 4` with a finite
(`3.0`) source sample. -/
theorem c3_zero_gain_witness :
    F32.feq (mixRun F32.fmul 4 8 0 (fun _ => F32.three) F32.pzero F32.one
      (8 + 2 * 0)) F32.pzero = true ∧
    F32.feq (mixRun F32.fmul 4 8 0 (fun _ => F32.three) F32.one F32.pzero
      (8 + 2 * 0 + 1)) F32.pzero = true :=
  c3_zero_gain 4 8 0 (fun _ => F32.three) F32.one rfl
    (fun j t hj ht => by omega) 0 (by omega) (by decide)

/-- C4 counterexample: a NaN source sample is not reproduced under unit
gains: the stored bits differ (the NaN is quietened) and the IEEE comparison
`dst[0] == src[0]` is false (NaN is unequal to everything). -/
theorem c4_identity_counterexample :
    mixRun F32.fmul 4 8 0 memNan F32.one F32.one (8 + 2 * 0) ≠ memNan (0 + 0) ∧
    F32.feq (mixRun F32.fmul 4 8 0 memNan F32.one F32.one (8 + 2 * 0))
      (memNan (0 + 0)) = false := by
  rw [mixRun_l F32.fmul 4 8 0 memNan F32.one F32.one rfl
    (fun j t hj ht => by omega) 0 (by omega)]
  exact ⟨by decide, by decide⟩

/-- C4 (amended): with `gain_l = gain_r = 1.0`, every well-formed non-NaN
source sample is reproduced bit-for-bit in both channels; NaN samples
propagate as (quietened) NaN and compare unequal under IEEE `==`. -/
theorem c4_identity_gain (n dst src : Nat) (mem : Nat → F32)
    (h4n : n % 4 = 0)
    (hdisj : ∀ j t, j < n → t < 2 * n → src + j ≠ dst + t)
    (s : Nat) (hs : s < n) (hwf : (mem (src + s)).wf)
    (hnan : (mem (src + s)).isNan = false) :
    mixRun F32.fmul n dst src mem F32.one F32.one (dst + 2 * s) = mem (src + s) ∧
    mixRun F32.fmul n dst src mem F32.one F32.one (dst + 2 * s + 1) = mem (src + s) := by
  constructor
  · rw [mixRun_l F32.fmul n dst src mem F32.one F32.one h4n hdisj s hs]
    exact F32.fmul_one _ hwf hnan
  · rw [mixRun_r F32.fmul n dst src mem F32.one F32.one h4n hdisj s hs]
    exact F32.fmul_one _ hwf hnan

/-- C4 witness: the hypotheses hold at `num_samples = 4` with source
sample `3.0`. -/
theorem c4_identity_gain_witness :
    mixRun F32.fmul 4 8 0 (fun _ => F32.three) F32.one F32.one (8 + 2 * 0)
      = F32.three ∧
    mixRun F32.fmul 4 8 0 (fun _ => F32.three) F32.one F32.one (8 + 2 * 0 + 1)
      = F32.three :=
  c4_identity_gain 4 8 0 (fun _ => F32.three) rfl
    (fun j t hj ht => by omega) 0 (by omega) (by decide) (by decide)

/-- C5: scale invariance.  When the element multiplication is associative —
the exact-arithmetic idealization under which "up to floating-point
rounding" reads as equality — pre-scaling the source by `k` and mixing
produces the same destination values as mixing and post-scaling by `k`. -/
theorem c5_scale_invariance {α : Type} (mul : α → α → α) (k : α)
    (n dst src : Nat) (mem : Nat → α) (gain_l gain_r : α)
    (h4n : n % 4 = 0)
    (hdisj : ∀ j t, j < n → t < 2 * n → src + j ≠ dst + t)
    (hassoc : ∀ a b c, mul (mul a b) c = mul a (mul b c))
    (s : Nat) (hs : s < n) :
    mixRun mul n dst src (fun a => mul k (mem a)) gain_l gain_r (dst + 2 * s)
      = mul k (mixRun mul n dst src mem gain_l gain_r (dst + 2 * s)) ∧
    mixRun mul n dst src (fun a => mul k (mem a)) gain_l gain_r (dst + 2 * s + 1)
      = mul k (mixRun mul n dst src mem gain_l gain_r (dst + 2 * s + 1)) := by
  constructor
  · rw [mixRun_l mul n dst src (fun a => mul k (mem a)) gain_l gain_r h4n hdisj s hs,
      mixRun_l mul n dst src mem gain_l gain_r h4n hdisj s hs]
    exact hassoc k (mem (src + s)) gain_l
  · rw [mixRun_r mul n dst src (fun a => mul k (mem a)) gain_l gain_r h4n hdisj s hs,
      mixRun_r mul n dst src mem gain_l gain_r h4n hdisj s hs]
    exact hassoc k (mem (src + s)) gain_r

/-- C5 witness: the hypotheses hold for exact natural-number multiplication
at `num_samples = 4`. -/
theorem c5_scale_invariance_witness :
    mixRun Nat.mul 4 8 0 (fun a => Nat.mul 7 ((fun _ => 3) a)) 5 11 (8 + 2 * 0)
      = Nat.mul 7 (mixRun Nat.mul 4 8 0 (fun _ => 3) 5 11 (8 + 2 * 0)) ∧
    mixRun Nat.mul 4 8 0 (fun a => Nat.mul 7 ((fun _ => 3) a)) 5 11 (8 + 2 * 0 + 1)
      = Nat.mul 7 (mixRun Nat.mul 4 8 0 (fun _ => 3) 5 11 (8 + 2 * 0 + 1)) :=
  c5_scale_invariance Nat.mul 7 4 8 0 (fun _ => 3) 5 11 rfl
    (fun j t hj ht => by omega) (fun a b c => Nat.mul_assoc a b c) 0 (by omega)

/-- C6: the minimum valid block `num_samples = 4` produces exactly the 8
interleaved outputs of the spec example: `src = [1.0, 2.0, 3.0, 4.0]`,
`gain_l = 0.5`, `gain_r = 2.0` gives
`dst = [0.5, 2.0, 1.0, 4.0, 1.5, 6.0, 2.0, 8.0]`. -/
theorem c6_minimum_block :
    mixRun F32.fmul 4 8 0 srcBuf F32.half F32.two (8 + 2 * 0) = F32.half ∧
    mixRun F32.fmul 4 8 0 srcBuf F32.half F32.two (8 + 2 * 0 + 1) = F32.two ∧
    mixRun F32.fmul 4 8 0 srcBuf F32.half F32.two (8 + 2 * 1) = F32.one ∧
    mixRun F32.fmul 4 8 0 srcBuf F32.half F32.two (8 + 2 * 1 + 1) = F32.four ∧
    mixRun F32.fmul 4 8 0 srcBuf F32.half F32.two (8 + 2 * 2) = F32.oneHalf ∧
    mixRun F32.fmul 4 8 0 srcBuf F32.half F32.two (8 + 2 * 2 + 1) = F32.six ∧
    mixRun F32.fmul 4 8 0 srcBuf F32.half F32.two (8 + 2 * 3) = F32.two ∧
    mixRun F32.fmul 4 8 0 srcBuf F32.half F32.two (8 + 2 * 3 + 1) = F32.eight := by
  have hd : ∀ j t, j < 4 → t < 2 * 4 → 0 + j ≠ 8 + t := fun j t hj ht => by omega
  refine ⟨?_, ?_, ?_, ?_, ?_, ?_, ?_, ?_⟩
  · rw [mixRun_l F32.fmul 4 8 0 srcBuf F32.half F32.two rfl hd 0 (by omega)]
    decide
  · rw [mixRun_r F32.fmul 4 8 0 srcBuf F32.half F32.two rfl hd 0 (by omega)]
    decide
  · rw [mixRun_l F32.fmul 4 8 0 srcBuf F32.half F32.two rfl hd 1 (by omega)]
    decide
  · rw [mixRun_r F32.fmul 4 8 0 srcBuf F32.half F32.two rfl hd 1 (by omega)]
    decide
  · rw [mixRun_l F32.fmul 4 8 0 srcBuf F32.half F32.two rfl hd 2 (by omega)]
    decide
  · rw [mixRun_r F32.fmul 4 8 0 srcBuf F32.half F32.two rfl hd 2 (by omega)]
    decide
  · rw [mixRun_l F32.fmul 4 8 0 srcBuf F32.half F32.two rfl hd 3 (by omega)]
    decide
  · rw [mixRun_r F32.fmul 4 8 0 srcBuf F32.half F32.two rfl hd 3 (by omega)]
    decide

/-- C7: the call never writes the source region: under the standard
non-overlap assumption, every source element is unchanged on return. -/
theorem c7_src_read_only {α : Type} (mul : α → α → α) (n dst src : Nat)
    (mem : Nat → α) (gain_l gain_r : α) (h4n : n % 4 = 0)
    (hdisj : ∀ j t, j < n → t < 2 * n → src + j ≠ dst + t)
    (j : Nat) (hj : j < n) :
    mixRun mul n dst src mem gain_l gain_r (src + j) = mem (src + j) := by
  rw [mixRun_eq mul n dst src mem gain_l gain_r h4n]
  exact mixLoop_frame mul n dst src _ _ 0 mem (src + j) h4n rfl
    (fun t _ ht2 => hdisj j t hj ht2)

/-- C7 witness: the hypotheses hold at `num_samples = 4`, `dst = 8`, `src = 0`. -/
theorem c7_src_read_only_witness :
    mixRun Nat.mul 4 8 0 (fun a => a) 5 11 (0 + 3) = (fun a => a) (0 + 3) :=
  c7_src_read_only Nat.mul 4 8 0 (fun a => a) 5 11 rfl
    (fun j t hj ht => by omega) 3 (by omega)

/-- C8: under the precondition the loop runs exactly `num_samples / 4`
iterations and returns; the embedding is a total function (no I/O,
allocation, or yielding exists in the model). -/
theorem c8_iteration_count (n : Nat) (h4n : n % 4 = 0) :
    mixIters n 0 = n / 4 := by
  rw [mixIters_eq]
  omega

/-- C8 witness: 8 samples take 2 iterations. -/
theorem c8_iteration_count_witness : mixIters 8 0 = 8 / 4 :=
  c8_iteration_count 8 (by omega)

/-- C9: `num_samples = 0` passes the assertion, performs zero iterations,
reads nothing, writes nothing, and returns the memory unchanged. -/
theorem c9_zero_samples {α : Type} (mul : α → α → α) (dst src : Nat)
    (mem : Nat → α) (gain_l gain_r : α) :
    mix_mono_to_stereo_intrinsics mul 0 dst src mem gain_l gain_r = some mem ∧
    mixReads 0 src 0 = [] ∧ mixWrites 0 dst 0 = [] ∧ mixIters 0 0 = 0 := by
  refine ⟨?_, ?_, ?_, ?_⟩
  · unfold mix_mono_to_stereo_intrinsics
    rw [if_pos rfl, mixLoop, dif_neg (by omega)]
  · rw [mixReads, dif_neg (by omega)]
  · rw [mixWrites, dif_neg (by omega)]
  · rw [mixIters, dif_neg (by omega)]

/-- C10: under the precondition, the loop reads exactly the source indices
`[0, num_samples)`, writes exactly the destination indices
`[0, 2*num_samples)` — each exactly once — and any address outside the
written destination window (in particular everything at destination index
`2*num_samples` or beyond) is untouched. -/
theorem c10_memory_safety (n dst src : Nat) (h4n : n % 4 = 0) :
    mixReads n src 0 = (List.range' 0 n).map (src + ·) ∧
    mixWrites n dst 0 = (List.range' 0 (2 * n)).map (dst + ·) ∧
    (∀ a ∈ mixReads n src 0, ∃ j, j < n ∧ a = src + j) ∧
    (∀ a ∈ mixWrites n dst 0, ∃ t, t < 2 * n ∧ a = dst + t) ∧
    (∀ t, t < 2 * n → (mixWrites n dst 0).count (dst + t) = 1) ∧
    (∀ (α : Type) (mul : α → α → α) (mem : Nat → α) (gain_l gain_r : α) (a : Nat),
      (∀ t, t < 2 * n → a ≠ dst + t) →
      mixRun mul n dst src mem gain_l gain_r a = mem a) := by
  have hr : mixReads n src 0 = (List.range' 0 n).map (src + ·) := by
    rw [mixReads_eq n src 0 h4n rfl]
    norm_num
  have hw : mixWrites n dst 0 = (List.range' 0 (2 * n)).map (dst + ·) := by
    rw [mixWrites_eq n dst 0 h4n rfl]
    norm_num
  have hnd : (mixWrites n dst 0).Nodup := by
    rw [hw]
    exact (List.nodup_range' _ _ _ (by omega)).map (fun a b hab => by omega)
  refine ⟨hr, hw, ?_, ?_, ?_, ?_⟩
  · intro a ha
    rw [hr] at ha
    obtain ⟨j, hj, rfl⟩ := List.mem_map.mp ha
    have := List.mem_range'_1.mp hj
    exact ⟨j, by omega, rfl⟩
  · intro a ha
    rw [hw] at ha
    obtain ⟨t, ht, rfl⟩ := List.mem_map.mp ha
    have := List.mem_range'_1.mp ht
    exact ⟨t, by omega, rfl⟩
  · intro t ht
    refine List.count_eq_one_of_mem hnd ?_
    rw [hw]
    exact List.mem_map.mpr ⟨t, List.mem_range'_1.mpr ⟨by omega, by omega⟩, rfl⟩
  · intro α mul mem gain_l gain_r a ha
    exact mixRun_frame mul n dst src mem gain_l gain_r a h4n ha

/-- C10 witness: at `num_samples = 4`, `dst = 8` the write set is the 8
destination addresses in order. -/
theorem c10_memory_safety_witness :
    mixWrites 4 8 0 = (List.range' 0 (2 * 4)).map (8 + ·) :=
  (c10_memory_safety 4 8 0 (by omega)).2.1
